import Mathlib

/-!
Verification of the orchestrator in `coconut/command/command.py` (class
`Command`): error aggregation (`register_error`), exception handling at the
job-completion boundary (`handling_exceptions`, `submit_comp_job`), the cache
gate (`hashashof` and the gate in `compile`), destination-path derivation and
the self-destination check (`compile_file`), worker-count handling
(`set_jobs`, `running_jobs`), package-marker creation (`create_package`),
directory enumeration (`compile_folder`), and source/mode validation
(`use_args`).

The filesystem is modelled as a partial map from path strings to file
contents.  The external collaborators (the compiler's `genhash`, the header
module's `gethash`, the translation itself, and the package header text) are
taken as parameters of the definitions, exactly in the role the orchestrator
uses them.  `fixpath` and `showpath` (display-path helpers from
`command/util.py`, not part of the orchestration logic) are treated as the
identity on the already-fixed paths the model works with.
-/

/-! ## Substring containment (Python's `in` on strings) -/

/-- Boolean test that `a` is a prefix of `b`, on character lists. -/
def isPrefixL : List Char → List Char → Bool
  | [], _ => true
  | _ :: _, [] => false
  | a :: as, b :: bs => a == b && isPrefixL as bs

/-- Boolean test that `sub` occurs contiguously inside `l`
(the semantics of Python's `sub in l` on strings). -/
def isInfixL : List Char → List Char → Bool
  | sub, [] => sub.isEmpty
  | sub, c :: rest' => isPrefixL sub (c :: rest') || isInfixL sub rest'

/-- `strContains s sub` is Python's `sub in s` for strings. -/
def strContains (s sub : String) : Bool :=
  isInfixL sub.data s.data

/-! ## ResultSink / ErrorAggregator: `Command.register_error` -/

/-- The mutable fields of `Command` that make up the exit status:
`exit_code` and `errmsg` (the comma-joined reasons string). -/
structure CmdState where
  exit_code : Nat
  errmsg : Option String
deriving DecidableEq

/-- The `Command` class defaults: `exit_code = 0`, `errmsg = None`. -/
def initState : CmdState := ⟨0, none⟩

/-- `Command.register_error(code=1, errmsg=None)`:
if a message is given it is stored when no message exists yet, appended with
`", "` when it is not already contained (Python substring `in`) in the
accumulated message, and dropped otherwise; the exit code becomes the max of
the old code and the new one. -/
def register_error (st : CmdState) (code : Nat) (errmsg : Option String) : CmdState :=
  let st1 :=
    match errmsg with
    | none => st
    | some m =>
      match st.errmsg with
      | none => { st with errmsg := some m }
      | some e =>
        if strContains e m then st
        else { st with errmsg := some (e ++ (", " ++ m)) }
  { st1 with exit_code := max st1.exit_code code }

/-- A sequence of `register_error` calls, folded over the state. -/
def recordAll (st : CmdState) (rs : List (Nat × Option String)) : CmdState :=
  rs.foldl (fun s r => register_error s r.1 r.2) st

/-- The chain condition under which no message is dropped by the substring
check: each message is not contained in the reasons string accumulated so
far. -/
def okChain : String → List String → Prop
  | _, [] => True
  | acc, m :: rest => strContains acc m = false ∧ okChain (acc ++ (", " ++ m)) rest

/-- The comma-join of messages onto an accumulated reasons string. -/
def joinAll : String → List String → String
  | acc, [] => acc
  | acc, m :: rest => joinAll (acc ++ (", " ++ m)) rest

/-! ## Exception handling: `Command.handling_exceptions` and the job
completion boundary of `Command.submit_comp_job` -/

/-- The exceptions distinguished by `handling_exceptions`. -/
inductive PyExc where
  | systemExit (code : Nat)
  | keyboardInterrupt
  | coconutException (msg : String)
  | other (clsName : String)
deriving DecidableEq

/-- `err.__class__.__name__` for the modelled exceptions. -/
def excName : PyExc → String
  | .systemExit _ => "SystemExit"
  | .keyboardInterrupt => "KeyboardInterrupt"
  | .coconutException _ => "CoconutException"
  | .other n => n

/-- `Command.handling_exceptions`: runs a body over the command state.  A
body either finishes with a new state or raises, carrying the state at the
point of the raise.  `SystemExit` is recorded as `register_error(err.code)`;
every other `BaseException` is recorded as
`register_error(errmsg=err.__class__.__name__)` (with the default code 1)
after printing a traceback; nothing propagates.  (The inner
`handle_broken_process_pool` context manager is an external helper that
re-raises a `KeyboardInterrupt`, which this model already covers as an
exception class.) -/
def handling_exceptions (st : CmdState)
    (body : CmdState → Except (PyExc × CmdState) CmdState) : CmdState :=
  match body st with
  | .ok st' => st'
  | .error (.systemExit c, st') => register_error st' c none
  | .error (e, st') => register_error st' 1 (some (excName e))

/-- The job-completion boundary of `Command.submit_comp_job`.  In inline mode
(`executor is None`) the source runs
`with handling_exceptions(): callback(method(...))`; in pooled mode the
`callback_wrapper` registered with `add_done_callback` runs
`with handling_exceptions(): result = future.result(); callback(result)`.
Both shapes are the same function of the translation outcome: re-raise a
failed translation inside `handling_exceptions`, otherwise run the callback
on the translated text. -/
def process_completion (st : CmdState) (result : Except PyExc String)
    (callback : String → CmdState → Except (PyExc × CmdState) CmdState) : CmdState :=
  handling_exceptions st (fun s =>
    match result with
    | .error e => .error (e, s)
    | .ok compiled => callback compiled s)

/-! ## Path helpers (`os.path` as used by the orchestrator) -/

/-- Index of the last occurrence of a character (`str.rfind`), on lists. -/
def rfindIdx : List Char → Char → Option Nat
  | [], _ => none
  | a :: rest, c =>
    match rfindIdx rest c with
    | some i => some (i + 1)
    | none => if a == c then some 0 else none

/-- `os.path.splitext` (CPython `posixpath.splitext`) on character lists:
split off the extension at the last dot of the basename, treating leading
dots of the basename as part of the root. -/
def splitextL (l : List Char) : List Char × List Char :=
  match rfindIdx l '.' with
  | none => (l, [])
  | some di =>
    let start := match rfindIdx l '/' with
      | none => 0
      | some si => si + 1
    if start ≤ di then
      if ((l.drop start).take (di - start)).any (fun c => c != '.') then
        (l.take di, l.drop di)
      else (l, [])
    else (l, [])

/-- `os.path.splitext` on strings. -/
def splitext (s : String) : String × String :=
  let r := splitextL s.data
  (⟨r.1⟩, ⟨r.2⟩)

/-- `os.path.basename` on character lists. -/
def basenameL (l : List Char) : List Char :=
  match rfindIdx l '/' with
  | none => l
  | some si => l.drop (si + 1)

/-- `os.path.basename` on strings. -/
def basename (s : String) : String := ⟨basenameL s.data⟩

/-- `os.path.join` (posix, two arguments) on character lists. -/
def joinPathL (a b : List Char) : List Char :=
  if b.head? = some '/' then b
  else if a = [] then b
  else if a.getLast? = some '/' then a ++ b
  else a ++ '/' :: b

/-- `os.path.join` on strings. -/
def joinPath (a b : String) : String := ⟨joinPathL a.data b.data⟩

/-- `os.path.dirname` (CPython `posixpath.dirname`) on character lists. -/
def dirnameL (l : List Char) : List Char :=
  match rfindIdx l '/' with
  | none => []
  | some si =>
    let head := l.take (si + 1)
    if head.all (fun c => c == '/') then head
    else (head.reverse.dropWhile (fun c => c == '/')).reverse

/-- `os.path.dirname` on strings. -/
def dirname (s : String) : String := ⟨dirnameL s.data⟩

/-! ## Constants -/

/-- Modelled from the spec: the compiled-output extension appended by
destination derivation (`comp_ext` from `coconut/constants.py`, which is not
under `src/`). -/
def comp_ext : String := ".py"

/-- Modelled from the spec: the recognized set of source extensions
(`code_exts` from `coconut/constants.py`, which is not under `src/`). -/
def code_exts : List String := [".coco"]

/-! ## Filesystem model -/

/-- A filesystem: a partial map from path to file content. -/
def FS : Type := String → Option String

/-- Writing one file. -/
def writeFs (fs : FS) (p : String) (content : String) : FS :=
  fun q => if q = p then some content else fs q

/-! ## CacheGate: `Command.hashashof` and the gate in `Command.compile` -/

/-- `Command.hashashof(destpath, code, package)`: when a destination is set
and the destination file exists, read it, extract its embedded hash with
`gethash` and compare against `self.comp.genhash(package, code)`; return the
existing compiled text on a match, `None` otherwise.  `gethash` (from
`coconut/compiler/header.py`) and `genhash` (a `Compiler` method) are
external collaborators passed as parameters. -/
def hashashof (gethash : String → Option String) (genhash : Bool → String → String)
    (fs : FS) (destpath : Option String) (code : String) (package : Bool) :
    Option String :=
  match destpath with
  | none => none
  | some d =>
    match fs d with
    | none => none
    | some compiled =>
      match gethash compiled with
      | none => none
      | some h => if h == genhash package code then some compiled else none

/-- Python truthiness of `Optional[str]` (`if foundhash:`). -/
def truthyStr : Option String → Bool
  | none => false
  | some s => !(s == "")

/-- `foundhash = None if force else self.hashashof(destpath, code, package)`. -/
def cacheGate (gethash : String → Option String) (genhash : Bool → String → String)
    (fs : FS) (destpath : Option String) (code : String) (package force : Bool) :
    Option String :=
  if force then none else hashashof gethash genhash fs destpath code package

/-! ## `Command.compile` -/

/-- Steps of one unit's compilation, in the order they happen in
`Command.compile`. -/
inductive Event where
  | wroteMarker
  | cacheChecked
  | translated
  | wroteDest
  | reportedComplete
deriving DecidableEq

/-- `create_package(dirpath)` writes `os.path.join(fixpath(dirpath),
"__coconut__.py")`; for a unit with destination `d` the marker path is
derived from `os.path.dirname(d)`. -/
def markerPathOf (d : String) : String :=
  joinPath (dirname d) "__coconut__.py"

/-- The marker-writing step of `compile` for a unit with destination `d`:
`if package is True: self.create_package(destdir)` — `create_package`
unconditionally (re)writes the package marker with the header text. -/
def markerStep (fs : FS) (d pkgHeader : String) (package : Bool) : FS :=
  if package then writeFs fs (markerPathOf d) pkgHeader else fs

/-- `Command.compile(codepath, destpath, package, run, force)` as a function
of the filesystem, also returning the ordered trace of steps taken.  The
source is read first; with a destination, the destination directory is
created and, in package mode, `create_package` (re)writes the package marker
(content `pkgHeader`, the external `comp.headers("package")` text); then the
cache gate runs (`hashashof` is only consulted when `force` is off); a
truthy prior output means the unit is reported `Left unchanged`; otherwise
the translator (`parse_module`/`parse_file`, abstracted as
`translate package code`) runs and the output is written when a destination
is set.  Running the output (`--run`) invokes the external execution
collaborator and does not touch the filesystem. -/
def compileUnit (gethash : String → Option String) (genhash : Bool → String → String)
    (translate : Bool → String → String) (pkgHeader : String)
    (fs : FS) (codepath : String) (destpath : Option String)
    (package run force : Bool) : Except String (FS × List Event) :=
  match fs codepath with
  | none => Except.error ("could not find source path " ++ codepath)
  | some code =>
    let fs1 : FS :=
      match destpath with
      | none => fs
      | some d => markerStep fs d pkgHeader package
    let evs1 : List Event :=
      match destpath with
      | none => []
      | some _ => if package then [Event.wroteMarker] else []
    let found := cacheGate gethash genhash fs1 destpath code package force
    let evs2 := evs1 ++ (if force then [] else [Event.cacheChecked])
    if truthyStr found then
      Except.ok (fs1, evs2 ++ [Event.reportedComplete])
    else
      let compiled := translate package code
      match destpath with
      | none => Except.ok (fs1, evs2 ++ [Event.translated, Event.reportedComplete])
      | some d =>
        Except.ok (writeFs fs1 d compiled,
          evs2 ++ [Event.translated, Event.wroteDest, Event.reportedComplete])

/-! ## `Command.compile_file`: destination derivation and the
self-destination check -/

/-- The `write` argument threaded from `use_args` through `compile_path`:
`None` (discard output, `--no-write`), `True` (auto destination), or a
destination directory. -/
inductive WriteSpec where
  | discard
  | auto
  | dir (w : String)
deriving DecidableEq

/-- The raw destination before extension fixing: `None` when `write is
None`, the source path itself when `write is True`, else
`os.path.join(write, os.path.basename(filepath))`. -/
def destpathRaw : WriteSpec → String → Option String
  | .discard, _ => none
  | .auto, fp => some fp
  | .dir w, fp => some (joinPath w (basename fp))

/-- The destination path computed by `compile_file`:
`base, ext = os.path.splitext(os.path.splitext(destpath)[0])`;
if `ext` is empty it becomes `comp_ext`; the destination is `base + ext`. -/
def destpathFinal (ws : WriteSpec) (fp : String) : Option String :=
  match destpathRaw ws fp with
  | none => none
  | some d =>
    let p := splitext (splitext d).1
    some (p.1 ++ (if p.2 = "" then comp_ext else p.2))

/-- `Command.compile_file`: derive the destination, reject compiling a file
to itself (`if filepath == destpath: raise CoconutException(...)`) before
`compile` performs any read or write, else run `compile`. -/
def compile_file (gethash : String → Option String) (genhash : Bool → String → String)
    (translate : Bool → String → String) (pkgHeader : String)
    (fs : FS) (filepath : String) (ws : WriteSpec)
    (package run force : Bool) : Except String (FS × List Event) :=
  let destpath := destpathFinal ws filepath
  if destpath = some filepath then
    Except.error ("cannot compile " ++ filepath ++ " to itself (incorrect file extension)")
  else
    compileUnit gethash genhash translate pkgHeader fs filepath destpath package run force

/-! ## Worker-count handling: `Command.set_jobs` and `Command.running_jobs` -/

/-- The `--jobs` argument as received by `set_jobs`: the literal string
`"sys"`, a string parsing as an integer, or a non-integer string (for which
`int(jobs)` raises `ValueError` and the code substitutes `-1`). -/
inductive JobsArg where
  | sys
  | int (n : Int)
  | nonIntStr
deriving DecidableEq

/-- The rejection message of `set_jobs`. -/
def jobsErrMsg : String := "--jobs must be an integer >= 0 or 'sys'"

/-- `Command.set_jobs`: `"sys"` stores `None`; a negative or non-integer
value raises; otherwise the integer is stored. -/
def set_jobs : JobsArg → Except String (Option Int)
  | .sys => Except.ok none
  | .nonIntStr => Except.error jobsErrMsg
  | .int n => if n < 0 then Except.error jobsErrMsg else Except.ok (some n)

/-- `Command.running_jobs`: with `jobs == 0` the body runs inline and no
pool is created (`none`); otherwise a `ProcessPoolExecutor(self.jobs)` is
created — `ProcessPoolExecutor(None)` (the `"sys"` case) sizes the pool to
`os.cpu_count()`, the host's available parallelism (the documented contract
of the external `concurrent.futures` library). -/
def running_jobs_pool : Option Int → Nat → Option Nat
  | some n, host => if n == 0 then none else some n.toNat
  | none, host => some host

/-! ## UnitResolver: `Command.compile_folder` -/

/-- A directory tree: the files in the directory and the named
subdirectories. -/
inductive DirTree where
  | mk (files : List String) (subdirs : List (String × DirTree))

/-- The files of a directory. -/
def DirTree.files : DirTree → List String
  | .mk fls _ => fls

/-- The subdirectories of a directory. -/
def DirTree.subdirs : DirTree → List (String × DirTree)
  | .mk _ sds => sds

/-- The pruning condition of `compile_folder`:
`name != "." * len(name) and name.startswith(".")` — a directory name is
removed from the walk when it starts with a dot (`startswith(".")` of the
one-character pattern: the first character is `'.'`) and is not made up
entirely of dots (a name equals `"." * len(name)` exactly when all its
characters are dots). -/
def hiddenSkip (n : String) : Bool :=
  !(n.data.all (fun c => c == '.')) && (n.data.head? == some '.')

mutual

/-- The files compiled by `compile_folder`'s `os.walk` loop over a tree, as
(path of directory names below the root, filename) pairs: in each directory,
every file whose `os.path.splitext` extension is in `code_exts` is compiled,
then subdirectory names matching the pruning condition are removed from
`dirnames` so `os.walk` does not descend into them.  The root itself was
given explicitly and its own name is never examined. -/
def enumTree : DirTree → List (List String × String)
  | .mk fls subdirs =>
    (fls.filter (fun f => code_exts.contains (splitext f).2)).map
      (fun f => (([] : List String), f)) ++ enumSubs subdirs

/-- The walk over the (pruned) subdirectory list. -/
def enumSubs : List (String × DirTree) → List (List String × String)
  | [] => []
  | (n, t) :: rest =>
    (if hiddenSkip n then []
     else (enumTree t).map (fun p => (n :: p.1, p.2))) ++ enumSubs rest

end

/-- A file lies at the given directory path inside a tree. -/
def hasFileAt : DirTree → List String → String → Prop
  | t, [], f => f ∈ t.files
  | t, d :: ds, f => ∃ s, s ∈ t.subdirs ∧ s.1 = d ∧ hasFileAt s.2 ds f

/-! ## Argument validation: `Command.use_args` -/

/-- What the source path resolves to (`os.path.isdir` / `os.path.isfile`). -/
inductive SrcKind where
  | file
  | dir
deriving DecidableEq

/-- The source-handling block of `Command.use_args` (the checks and the
destination/package resolution performed before `compile_path` is invoked
under `running_jobs`).  A `CoconutException` message is returned instead of
the `(write, package)` pair that would be passed on to compilation. -/
def use_args_source (kind : SrcKind) (run watch interact nowrite package standalone : Bool)
    (dest : Option String) (destIsFile : Bool) :
    Except String (WriteSpec × Option Bool) :=
  if run && decide (kind = SrcKind.dir) then
    Except.error "source path must point to file not directory when --run is enabled"
  else if watch && decide (kind = SrcKind.file) then
    Except.error "source path must point to directory not file when --watch is enabled"
  else if interact && run then
    Except.error "extraneous --run; --interact implies --run when used in compilation"
  else
    let wsE : Except String WriteSpec :=
      match dest with
      | none => if nowrite then Except.ok WriteSpec.discard else Except.ok WriteSpec.auto
      | some d =>
        if nowrite then
          Except.error "destination path cannot be given when --nowrite is enabled"
        else if destIsFile then
          Except.error "destination path must point to directory not file"
        else Except.ok (WriteSpec.dir d)
    match wsE with
    | .error e => Except.error e
    | .ok ws =>
      if package && standalone then
        Except.error "cannot compile as both --package and --standalone"
      else
        Except.ok (ws, if package then some true
          else if standalone then some false else none)

/-! ## Lemmas about substring containment -/

theorem isPrefixL_refl (l : List Char) : isPrefixL l l = true := by
  induction l with
  | nil => rfl
  | cons a as ih => simp [isPrefixL, ih]

theorem isPrefixL_append (a : List Char) :
    ∀ b x : List Char, isPrefixL a b = true → isPrefixL a (b ++ x) = true := by
  induction a with
  | nil => intro b x _; rfl
  | cons c cs ih =>
    intro b x h
    cases b with
    | nil => simp [isPrefixL] at h
    | cons d ds =>
      simp [isPrefixL] at h ⊢
      exact ⟨h.1, ih ds x h.2⟩

theorem isInfixL_nil (l : List Char) : isInfixL [] l = true := by
  cases l with
  | nil => rfl
  | cons c cs => simp [isInfixL, isPrefixL]

theorem isInfixL_append_right (m : List Char) :
    ∀ e x : List Char, isInfixL m e = true → isInfixL m (e ++ x) = true := by
  intro e
  induction e with
  | nil =>
    intro x h
    simp [isInfixL, List.isEmpty_iff] at h
    subst h
    exact isInfixL_nil x
  | cons c cs ih =>
    intro x h
    simp only [isInfixL, Bool.or_eq_true] at h
    rcases h with h | h
    · simp only [List.cons_append, isInfixL, Bool.or_eq_true]
      exact Or.inl (isPrefixL_append m (c :: cs) x h)
    · simp only [List.cons_append, isInfixL, Bool.or_eq_true]
      exact Or.inr (ih x h)

theorem isInfixL_append_left (m : List Char) :
    ∀ x : List Char, isInfixL m (x ++ m) = true := by
  intro x
  induction x with
  | nil =>
    cases m with
    | nil => rfl
    | cons c cs => simp [isInfixL, isPrefixL_refl]
  | cons c cs ih =>
    simp only [List.cons_append, isInfixL, Bool.or_eq_true]
    exact Or.inr ih

theorem strContains_append_right (e m x : String) (h : strContains e m = true) :
    strContains (e ++ x) m = true := by
  have hd : (e ++ x).data = e.data ++ x.data := rfl
  unfold strContains at h ⊢
  rw [hd]
  exact isInfixL_append_right m.data e.data x.data h

theorem strContains_self_suffix (x m : String) : strContains (x ++ m) m = true := by
  have hd : (x ++ m).data = x.data ++ m.data := rfl
  unfold strContains
  rw [hd]
  exact isInfixL_append_left m.data x.data

/-! ## Lemmas about `register_error` -/

theorem register_error_exit (st : CmdState) (c : Nat) (m : Option String) :
    (register_error st c m).exit_code = max st.exit_code c := by
  rcases st with ⟨ec, em⟩
  cases m with
  | none => rfl
  | some m =>
    cases em with
    | none => rfl
    | some e =>
      by_cases h : strContains e m = true
      · simp [register_error, h]
      · simp [register_error, h]

theorem register_error_keeps (st : CmdState) (c : Nat) (m' : Option String) (m : String)
    (h : ∃ e, st.errmsg = some e ∧ strContains e m = true) :
    ∃ e, (register_error st c m').errmsg = some e ∧ strContains e m = true := by
  rcases h with ⟨e, he, hc⟩
  rcases st with ⟨ec, em⟩
  simp only at he
  subst he
  cases m' with
  | none => exact ⟨e, rfl, hc⟩
  | some m₂ =>
    by_cases h2 : strContains e m₂ = true
    · exact ⟨e, by simp [register_error, h2], hc⟩
    · refine ⟨e ++ (", " ++ m₂), by simp [register_error, h2], ?_⟩
      exact strContains_append_right e m (", " ++ m₂) hc

theorem register_error_adds (st : CmdState) (c : Nat) (m : String) :
    ∃ e, (register_error st c (some m)).errmsg = some e ∧ strContains e m = true := by
  rcases st with ⟨ec, em⟩
  cases em with
  | none =>
    refine ⟨m, rfl, ?_⟩
    have := strContains_self_suffix "" m
    simpa using this
  | some e =>
    by_cases h : strContains e m = true
    · exact ⟨e, by simp [register_error, h], h⟩
    · refine ⟨e ++ (", " ++ m), by simp [register_error, h], ?_⟩
      have h2 : e ++ (", " ++ m) = (e ++ ", ") ++ m := by
        rw [String.append_assoc]
      rw [h2]
      exact strContains_self_suffix (e ++ ", ") m

theorem recordAll_keeps (rs : List (Nat × Option String)) :
    ∀ (st : CmdState) (m : String),
      (∃ e, st.errmsg = some e ∧ strContains e m = true) →
      ∃ e, (recordAll st rs).errmsg = some e ∧ strContains e m = true := by
  induction rs with
  | nil => intro st m h; exact h
  | cons r rest ih =>
    intro st m h
    exact ih (register_error st r.1 r.2) m (register_error_keeps st r.1 r.2 m h)

theorem recordAll_exit (rs : List (Nat × Option String)) :
    ∀ st : CmdState,
      (recordAll st rs).exit_code = rs.foldl (fun a r => max a r.1) st.exit_code := by
  induction rs with
  | nil => intro st; rfl
  | cons r rest ih =>
    intro st
    show (recordAll (register_error st r.1 r.2) rest).exit_code = _
    rw [ih (register_error st r.1 r.2), register_error_exit, List.foldl_cons]

theorem recordAll_join (ms : List String) :
    ∀ (st : CmdState) (acc : String) (c : Nat),
      st.errmsg = some acc → okChain acc ms →
      (recordAll st (ms.map (fun m => (c, some m)))).errmsg = some (joinAll acc ms) := by
  induction ms with
  | nil => intro st acc c hacc _; exact hacc
  | cons m rest ih =>
    intro st acc c hacc hok
    rcases hok with ⟨hnc, hok⟩
    rcases st with ⟨ec, em⟩
    simp only at hacc
    subst hacc
    show (recordAll (register_error ⟨ec, some acc⟩ c (some m)) _).errmsg = _
    have hre : (register_error ⟨ec, some acc⟩ c (some m)).errmsg
        = some (acc ++ (", " ++ m)) := by
      simp [register_error, hnc]
    have := ih (register_error ⟨ec, some acc⟩ c (some m)) (acc ++ (", " ++ m)) c hre hok
    rw [this]
    rfl

theorem recordAll_mem (rs : List (Nat × Option String)) :
    ∀ (st : CmdState) (c : Nat) (m : String), (c, some m) ∈ rs →
      ∃ e, (recordAll st rs).errmsg = some e ∧ strContains e m = true := by
  induction rs with
  | nil => intro st c m hm; simp at hm
  | cons r rest ih =>
    intro st c m hm
    rcases List.mem_cons.mp hm with h | h
    · show ∃ e, (recordAll (register_error st r.1 r.2) rest).errmsg = some e ∧ _
      rw [← h]
      exact recordAll_keeps rest _ m (register_error_adds st c m)
    · exact ih (register_error st r.1 r.2) c m h

/-- C1: for a sequence of `register_error(code, msg)` calls from the initial
state, the final exit code is the running maximum of the recorded codes;
every recorded message is contained (as a substring) in the final reasons
string; and whenever no message is a substring of the reasons accumulated
before it, the final reasons string is exactly the comma-join of all the
messages in order — each one a distinct entry, none dropped. -/
theorem register_error_accumulation (rs : List (Nat × Option String)) :
    (recordAll initState rs).exit_code = rs.foldl (fun a r => max a r.1) 0
    ∧ (∀ c m, (c, some m) ∈ rs →
        ∃ e, (recordAll initState rs).errmsg = some e ∧ strContains e m = true)
    ∧ (∀ c m₀ ms, rs = (m₀ :: ms).map (fun m => (c, some m)) → okChain m₀ ms →
        (recordAll initState rs).errmsg = some (joinAll m₀ ms)) := by
  refine ⟨recordAll_exit rs initState, recordAll_mem rs initState, ?_⟩
  intro c m₀ ms hrs hok
  subst hrs
  show (recordAll (register_error initState c (some m₀)) (ms.map _)).errmsg = _
  exact recordAll_join ms (register_error initState c (some m₀)) m₀ c rfl hok

theorem register_error_accumulation_witness :
    (recordAll initState [(1, some "AA"), (1, some "BB")]).exit_code
      = [((1 : Nat), some "AA"), (1, some "BB")].foldl (fun a r => max a r.1) 0
    ∧ (∃ e, (recordAll initState [(1, some "AA"), (1, some "BB")]).errmsg = some e
        ∧ strContains e "AA" = true)
    ∧ (recordAll initState [(1, some "AA"), (1, some "BB")]).errmsg
      = some (joinAll "AA" ["BB"]) := by
  obtain ⟨h1, h2, h3⟩ := register_error_accumulation [(1, some "AA"), (1, some "BB")]
  exact ⟨h1, h2 1 "AA" (by simp), h3 1 "AA" ["BB"] rfl ⟨rfl, trivial⟩⟩

/-- C1 counterexample: recording the two pairwise-distinct messages
`"ValueError"` and then `"Error"` leaves a single entry — the second message
is dropped because the dedup test is Python substring containment, not
message equality, so the reasons are not a set union of the recorded
messages. -/
theorem register_error_dedup_cex :
    ("ValueError" : String) ≠ "Error"
    ∧ (recordAll initState [(1, some "ValueError"), (1, some "Error")]).errmsg
      = some "ValueError"
    ∧ (some "ValueError" : Option String)
      ≠ some ("ValueError" ++ (", " ++ "Error")) := by
  exact ⟨by decide, rfl, by decide⟩

/-! ## C2: the job-completion boundary -/

/-- C2: the completion boundary of `submit_comp_job` is a total function of
the job outcome — it never re-raises.  When the translation succeeded the
callback's effect is applied exactly once (the final state is exactly the
callback's one resulting state); if the callback itself raises, the failure
is recorded into the exit status by the `register_error` merge (exit code
`max`-merged with 1, exception class name contained in the reasons string)
instead of propagating or being dropped; and when the translation itself
raised, the same recording happens at the boundary. -/
theorem submit_comp_job_completion (st : CmdState) (out : String)
    (cb : String → CmdState → Except (PyExc × CmdState) CmdState) :
    (∀ st₂, cb out st = Except.ok st₂ → process_completion st (Except.ok out) cb = st₂)
    ∧ (∀ cls st₂, cb out st = Except.error (PyExc.other cls, st₂) →
        (process_completion st (Except.ok out) cb).exit_code = max st₂.exit_code 1
        ∧ ∃ e, (process_completion st (Except.ok out) cb).errmsg = some e
            ∧ strContains e cls = true)
    ∧ (∀ cls, (process_completion st (Except.error (PyExc.other cls)) cb).exit_code
          = max st.exit_code 1
        ∧ ∃ e, (process_completion st (Except.error (PyExc.other cls)) cb).errmsg = some e
            ∧ strContains e cls = true) := by
  refine ⟨?_, ?_, ?_⟩
  · intro st₂ h
    simp [process_completion, handling_exceptions, h]
  · intro cls st₂ h
    have hpc : process_completion st (Except.ok out) cb
        = register_error st₂ 1 (some cls) := by
      simp [process_completion, handling_exceptions, h, excName]
    rw [hpc]
    exact ⟨register_error_exit st₂ 1 (some cls), register_error_adds st₂ 1 cls⟩
  · intro cls
    have hpc : process_completion st (Except.error (PyExc.other cls)) cb
        = register_error st 1 (some cls) := by
      simp [process_completion, handling_exceptions, excName]
    rw [hpc]
    exact ⟨register_error_exit st 1 (some cls), register_error_adds st 1 cls⟩

theorem submit_comp_job_completion_witness :
    (process_completion initState (Except.ok "out")
        (fun _ s => Except.error (PyExc.other "ZeroDivisionError", s))).exit_code
      = max initState.exit_code 1
    ∧ ∃ e, (process_completion initState (Except.ok "out")
        (fun _ s => Except.error (PyExc.other "ZeroDivisionError", s))).errmsg = some e
        ∧ strContains e "ZeroDivisionError" = true := by
  exact (submit_comp_job_completion initState "out"
    (fun _ s => Except.error (PyExc.other "ZeroDivisionError", s))).2.1
    "ZeroDivisionError" initState rfl

/-! ## C3: the cache gate -/

/-- C3: assuming the external hash extractor finds no embedded hash in empty
text (`gethash "" = none`, true of the real header scanner), the gate in
`compile` skips translation exactly when `force` is off, the destination
file exists, and its embedded `CacheMarker` equals the freshly computed
digest `genhash(package, code)`; a skip hands back the existing destination
content as the prior output; and with `force` on the gate never consults the
cache. -/
theorem cacheGate_skips_iff (gethash : String → Option String)
    (genhash : Bool → String → String) (fs : FS) (d code : String)
    (package force : Bool) (hG : gethash "" = none) :
    (truthyStr (cacheGate gethash genhash fs (some d) code package force) = true
      ↔ force = false ∧ ∃ c, fs d = some c ∧ gethash c = some (genhash package code))
    ∧ (∀ c, cacheGate gethash genhash fs (some d) code package force = some c →
        fs d = some c)
    ∧ (force = true → cacheGate gethash genhash fs (some d) code package force = none) := by
  refine ⟨?_, ?_, ?_⟩
  · cases force with
    | true => simp [cacheGate, truthyStr]
    | false =>
      simp only [cacheGate, Bool.false_eq_true, if_false, hashashof, true_and]
      cases hfs : fs d with
      | none => simp [truthyStr]
      | some c =>
        cases hg : gethash c with
        | none => simp [truthyStr, hg]
        | some h =>
          by_cases hb : h = genhash package code
          · subst hb
            have hc : c ≠ "" := by
              intro hc
              rw [hc, hG] at hg
              exact Option.noConfusion hg
            simp [truthyStr, hg, hc]
          · have hb2 : (h == genhash package code) = false := by
              simp [hb]
            simp only [hb2, Bool.false_eq_true, if_false, truthyStr]
            simp [hg, hb]
  · intro c hc
    cases force with
    | true => simp [cacheGate] at hc
    | false =>
      simp only [cacheGate, Bool.false_eq_true, if_false, hashashof] at hc
      split at hc
      · exact Option.noConfusion hc
      · rename_i compiled heq
        split at hc
        · exact Option.noConfusion hc
        · rename_i h heq2
          split at hc
          · rw [heq, Option.some.inj hc]
          · exact Option.noConfusion hc
  · intro hf
    simp [cacheGate, hf]

theorem cacheGate_skips_iff_witness :
    (truthyStr (cacheGate (fun s => if s = "#X" then some "H" else none)
        (fun _ _ => "H") (fun p => if p = "dst/a.py" then some "#X" else none)
        (some "dst/a.py") "code" false false) = true
      ↔ false = false ∧ ∃ c, (fun p => if p = "dst/a.py" then some "#X" else none :
          FS) "dst/a.py" = some c ∧ (if c = "#X" then some "H" else none) = some "H")
    ∧ (∀ c, cacheGate (fun s => if s = "#X" then some "H" else none)
        (fun _ _ => "H") (fun p => if p = "dst/a.py" then some "#X" else none)
        (some "dst/a.py") "code" false false = some c →
        (if ("dst/a.py" : String) = "dst/a.py" then some "#X" else none) = some c)
    ∧ (false = true → cacheGate (fun s => if s = "#X" then some "H" else none)
        (fun _ _ => "H") (fun p => if p = "dst/a.py" then some "#X" else none)
        (some "dst/a.py") "code" false false = none) :=
  cacheGate_skips_iff (fun s => if s = "#X" then some "H" else none)
    (fun _ _ => "H") (fun p => if p = "dst/a.py" then some "#X" else none)
    "dst/a.py" "code" false false (by decide)

/-! ## Filesystem lemmas -/

theorem writeFs_at (fs : FS) (p c : String) : writeFs fs p c p = some c := by
  simp [writeFs]

theorem writeFs_other (fs : FS) (p c q : String) (h : q ≠ p) :
    writeFs fs p c q = fs q := by
  simp [writeFs, h]

theorem markerStep_other (fs : FS) (d pkgHeader : String) (package : Bool)
    (q : String) (h : q ≠ markerPathOf d) :
    markerStep fs d pkgHeader package q = fs q := by
  unfold markerStep
  split
  · exact writeFs_other fs _ pkgHeader q h
  · rfl

theorem markerStep_noop (fs : FS) (d pkgHeader : String) (package : Bool)
    (hm : package = true → fs (markerPathOf d) = some pkgHeader) :
    ∀ p, markerStep fs d pkgHeader package p = fs p := by
  intro p
  unfold markerStep
  split
  · rename_i hp
    by_cases hq : p = markerPathOf d
    · rw [hq, writeFs_at, hm hp]
    · exact writeFs_other fs _ pkgHeader p hq
  · rfl

theorem hashashof_read (G : String → Option String) (g : Bool → String → String)
    (fs fs' : FS) (d code : String) (package : Bool) (h : fs d = fs' d) :
    hashashof G g fs (some d) code package = hashashof G g fs' (some d) code package := by
  have e : ∀ fs0 : FS, hashashof G g fs0 (some d) code package
      = (match fs0 d with
         | none => none
         | some compiled =>
           match G compiled with
           | none => none
           | some h2 => if (h2 == g package code) = true then some compiled else none) :=
    fun _ => rfl
  rw [e fs, e fs', h]

theorem cacheGate_read (G : String → Option String) (g : Bool → String → String)
    (fs fs' : FS) (d code : String) (package force : Bool) (h : fs d = fs' d) :
    cacheGate G g fs (some d) code package force
      = cacheGate G g fs' (some d) code package force := by
  unfold cacheGate
  rw [hashashof_read G g fs fs' d code package h]

theorem compileUnit_unfold (G : String → Option String) (g : Bool → String → String)
    (T : Bool → String → String) (pkgHeader : String) (fs : FS)
    (codepath d code : String) (package run force : Bool)
    (hsrc : fs codepath = some code) :
    compileUnit G g T pkgHeader fs codepath (some d) package run force =
      (if truthyStr (cacheGate G g (markerStep fs d pkgHeader package) (some d)
          code package force) then
        Except.ok (markerStep fs d pkgHeader package,
          ((if package then [Event.wroteMarker] else [])
            ++ (if force then [] else [Event.cacheChecked]))
          ++ [Event.reportedComplete])
      else
        Except.ok (writeFs (markerStep fs d pkgHeader package) d (T package code),
          ((if package then [Event.wroteMarker] else [])
            ++ (if force then [] else [Event.cacheChecked]))
          ++ [Event.translated, Event.wroteDest, Event.reportedComplete])) := by
  unfold compileUnit
  rw [hsrc]

theorem markerStep_marker (fs : FS) (d pkgHeader : String) (package : Bool)
    (hp : package = true) :
    markerStep fs d pkgHeader package (markerPathOf d) = some pkgHeader := by
  unfold markerStep
  rw [if_pos hp]
  exact writeFs_at fs _ pkgHeader

theorem cacheGate_found (G : String → Option String) (g : Bool → String → String)
    (fs : FS) (d code c : String) (package : Bool)
    (hd : fs d = some c) (hG : G c = some (g package code)) :
    cacheGate G g fs (some d) code package false = some c := by
  have e : cacheGate G g fs (some d) code package false
      = hashashof G g fs (some d) code package := by
    simp [cacheGate]
  have e2 : hashashof G g fs (some d) code package
      = (match fs d with
         | none => none
         | some compiled =>
           match G compiled with
           | none => none
           | some h2 => if (h2 == g package code) = true then some compiled else none) :=
    rfl
  rw [e, e2, hd]
  simp [hG]

/-! ## C4: idempotence of recompilation -/

/-- C4: with the external translator's contract that its output embeds the
digest of the input (`gethash (translate package code) = genhash package
code`) and is nonempty, and with the three paths of a unit distinct, a
second `compile` of the same source with the same configuration and without
`--force` performs no translation (its trace has no `translated` event: the
cache gate skips the unit) and leaves the filesystem byte-identical to the
state after the first run.  The digest itself is a pure function of
(configuration, package mode, source text) — `genhash` is a parameter
applied to exactly those inputs, so determinism is inherent in the model. -/
theorem compile_idempotent
    (G : String → Option String) (g : Bool → String → String)
    (T : Bool → String → String) (pkgHeader : String)
    (fs : FS) (codepath d code : String) (package run run₂ : Bool)
    (hsrc : fs codepath = some code)
    (hT : G (T package code) = some (g package code))
    (hne : T package code ≠ "")
    (hcd : codepath ≠ d) (hcm : codepath ≠ markerPathOf d)
    (hmd : markerPathOf d ≠ d) :
    ∃ fs₁ evs₁ fs₂ evs₂,
      compileUnit G g T pkgHeader fs codepath (some d) package run false
        = Except.ok (fs₁, evs₁)
      ∧ compileUnit G g T pkgHeader fs₁ codepath (some d) package run₂ false
        = Except.ok (fs₂, evs₂)
      ∧ Event.translated ∉ evs₂
      ∧ ∀ p, fs₂ p = fs₁ p := by
  have hfsm_src : markerStep fs d pkgHeader package codepath = some code := by
    rw [markerStep_other fs d pkgHeader package codepath hcm]
    exact hsrc
  rw [compileUnit_unfold G g T pkgHeader fs codepath d code package run false hsrc]
  by_cases hskip :
      truthyStr (cacheGate G g (markerStep fs d pkgHeader package) (some d)
        code package false) = true
  · -- first run was skipped by the gate; the second skips the same way
    rw [if_pos hskip]
    have hnoop : ∀ p,
        markerStep (markerStep fs d pkgHeader package) d pkgHeader package p
          = markerStep fs d pkgHeader package p :=
      markerStep_noop _ d pkgHeader package
        (fun hp => markerStep_marker fs d pkgHeader package hp)
    have hgate2 :
        cacheGate G g (markerStep (markerStep fs d pkgHeader package) d pkgHeader package)
          (some d) code package false
        = cacheGate G g (markerStep fs d pkgHeader package) (some d) code package false :=
      cacheGate_read G g _ _ d code package false (hnoop d)
    have hrun2 : compileUnit G g T pkgHeader (markerStep fs d pkgHeader package)
        codepath (some d) package run₂ false
        = Except.ok (markerStep (markerStep fs d pkgHeader package) d pkgHeader package,
            ((if package then [Event.wroteMarker] else [])
              ++ (if false then [] else [Event.cacheChecked]))
            ++ [Event.reportedComplete]) := by
      rw [compileUnit_unfold G g T pkgHeader _ codepath d code package run₂ false hfsm_src,
        hgate2, if_pos hskip]
    refine ⟨markerStep fs d pkgHeader package, _, _, _, rfl, hrun2, ?_, hnoop⟩
    cases package <;> decide
  · -- first run translated and wrote the destination; the second skips
    rw [if_neg hskip]
    have h2src : writeFs (markerStep fs d pkgHeader package) d (T package code) codepath
        = some code := by
      rw [writeFs_other _ d _ codepath hcd]
      exact hfsm_src
    have hnoop : ∀ p,
        markerStep (writeFs (markerStep fs d pkgHeader package) d (T package code))
          d pkgHeader package p
        = writeFs (markerStep fs d pkgHeader package) d (T package code) p := by
      apply markerStep_noop
      intro hp
      rw [writeFs_other _ d _ _ hmd]
      exact markerStep_marker fs d pkgHeader package hp
    have hdest :
        markerStep (writeFs (markerStep fs d pkgHeader package) d (T package code))
          d pkgHeader package d = some (T package code) := by
      rw [hnoop d]
      exact writeFs_at _ d _
    have hgate2 : truthyStr
        (cacheGate G g
          (markerStep (writeFs (markerStep fs d pkgHeader package) d (T package code))
            d pkgHeader package)
          (some d) code package false) = true := by
      rw [cacheGate_found G g _ d code (T package code) package hdest hT]
      simp [truthyStr, hne]
    have hrun2 : compileUnit G g T pkgHeader
        (writeFs (markerStep fs d pkgHeader package) d (T package code))
        codepath (some d) package run₂ false
        = Except.ok
            (markerStep (writeFs (markerStep fs d pkgHeader package) d (T package code))
              d pkgHeader package,
            ((if package then [Event.wroteMarker] else [])
              ++ (if false then [] else [Event.cacheChecked]))
            ++ [Event.reportedComplete]) := by
      rw [compileUnit_unfold G g T pkgHeader _ codepath d code package run₂ false h2src,
        if_pos hgate2]
    refine ⟨writeFs (markerStep fs d pkgHeader package) d (T package code), _, _, _,
      rfl, hrun2, ?_, hnoop⟩
    cases package <;> decide

theorem compile_idempotent_witness :
    ∃ fs₁ evs₁ fs₂ evs₂,
      compileUnit (fun s => if s = "#hi" then some "Hhi" else none)
        (fun _ _ => "Hhi") (fun _ _ => "#hi") "PKG"
        (fun p => if p = "src/a.coco" then some "hi" else none)
        "src/a.coco" (some "dst/a.py") true false false
        = Except.ok (fs₁, evs₁)
      ∧ compileUnit (fun s => if s = "#hi" then some "Hhi" else none)
        (fun _ _ => "Hhi") (fun _ _ => "#hi") "PKG"
        fs₁ "src/a.coco" (some "dst/a.py") true false false
        = Except.ok (fs₂, evs₂)
      ∧ Event.translated ∉ evs₂
      ∧ ∀ p, fs₂ p = fs₁ p :=
  compile_idempotent (fun s => if s = "#hi" then some "Hhi" else none)
    (fun _ _ => "Hhi") (fun _ _ => "#hi") "PKG"
    (fun p => if p = "src/a.coco" then some "hi" else none)
    "src/a.coco" "dst/a.py" "hi" true false false
    (by decide) (by decide) (by decide) (by decide) (by decide) (by decide)

/-! ## Lemmas about `rfindIdx` and `splitext` -/

theorem takeLen_append (l₁ l₂ : List Char) : (l₁ ++ l₂).take l₁.length = l₁ := by
  induction l₁ with
  | nil => rfl
  | cons a as ih => simp [List.take, ih]

theorem dropLen_append (l₁ l₂ : List Char) : (l₁ ++ l₂).drop l₁.length = l₂ := by
  induction l₁ with
  | nil => rfl
  | cons a as ih => simpa [List.drop] using ih

theorem rfindIdx_eq_none (l : List Char) (c : Char) (h : ∀ a ∈ l, a ≠ c) :
    rfindIdx l c = none := by
  induction l with
  | nil => rfl
  | cons a rest ih =>
    have hr : rfindIdx rest c = none := ih (fun a ha => h a (List.mem_cons_of_mem _ ha))
    have ha : (a == c) = false := by
      simp [h a (List.mem_cons_self a rest)]
    simp [rfindIdx, hr, ha]

theorem rfindIdx_append_some (l₁ l₂ : List Char) (c : Char) (j : Nat)
    (h : rfindIdx l₂ c = some j) :
    rfindIdx (l₁ ++ l₂) c = some (l₁.length + j) := by
  induction l₁ with
  | nil => simpa using h
  | cons a as ih =>
    show (match rfindIdx (as ++ l₂) c with
          | some i => some (i + 1)
          | none => if a == c then some 0 else none) = some ((a :: as).length + j)
    rw [ih]
    exact congrArg some (by simp [List.length_cons]; omega)

theorem splitextL_split (b e : List Char)
    (hbs : ∀ a ∈ b, a ≠ '/') (hbw : ∃ a ∈ b, a ≠ '.')
    (hed : ∀ a ∈ e, a ≠ '.') (hes : ∀ a ∈ e, a ≠ '/') :
    splitextL (b ++ '.' :: e) = (b, '.' :: e) := by
  have hdot : rfindIdx (b ++ '.' :: e) '.' = some b.length := by
    have h0 : rfindIdx ('.' :: e) '.' = some 0 := by
      have hre : rfindIdx e '.' = none := rfindIdx_eq_none e '.' hed
      simp [rfindIdx, hre]
    simpa using rfindIdx_append_some b ('.' :: e) '.' 0 h0
  have hsl : rfindIdx (b ++ '.' :: e) '/' = none := by
    apply rfindIdx_eq_none
    intro a ha
    rcases List.mem_append.mp ha with h | h
    · exact hbs a h
    · rcases List.mem_cons.mp h with h | h
      · rw [h]; decide
      · exact hes a h
  have hany : b.any (fun c => c != '.') = true := by
    rcases hbw with ⟨a, ha, hane⟩
    exact List.any_eq_true.mpr ⟨a, ha, by simp [hane]⟩
  simp only [splitextL, hdot, hsl]
  have htk : (b ++ '.' :: e).take b.length = b := takeLen_append b ('.' :: e)
  have hdr : (b ++ '.' :: e).drop b.length = '.' :: e := dropLen_append b ('.' :: e)
  simp [htk, hdr, hany, Nat.zero_le]

theorem splitextL_no_dot (b : List Char) (hb : ∀ a ∈ b, a ≠ '.') :
    splitextL b = (b, []) := by
  have hd : rfindIdx b '.' = none := rfindIdx_eq_none b '.' hb
  simp [splitextL, hd]

theorem strData_append (s t : String) : (s ++ t).data = s.data ++ t.data := rfl

theorem strEq_of_data (s t : String) (h : s.data = t.data) : s = t := by
  cases s
  cases t
  exact congrArg String.mk h

theorem destpathFinal_auto (fp : String) (r1 r2 s1 s2 : List Char)
    (hA : splitextL fp.data = (r1, r2)) (hB : splitextL r1 = (s1, s2)) :
    destpathFinal WriteSpec.auto fp
      = some ((⟨s1⟩ : String) ++ (if (⟨s2⟩ : String) = "" then comp_ext else ⟨s2⟩)) := by
  simp only [destpathFinal, destpathRaw, splitext, hA, hB]

/-! ## C5: destination derivation in `compile_file` -/

/-- C5 (amended): with an automatic destination, `compile_file` strips the
last extension of the source name; if the remaining name still carries a
(secondary) extension, that extension is kept as the output extension — so
`base.ext1.ext2` compiles to `base.ext1` — and only a name with no secondary
extension gets the compiled-output extension appended — so `base.ext1`
compiles to `base` + `comp_ext`.  (`base`, `ext1`, `ext2` contain no dot and
no path separator, `base` nonempty.) -/
theorem compile_file_dest (base e1 e2 : String)
    (hb0 : base.data ≠ [])
    (hb : ∀ c ∈ base.data, c ≠ '.' ∧ c ≠ '/')
    (h1 : ∀ c ∈ e1.data, c ≠ '.' ∧ c ≠ '/')
    (h2 : ∀ c ∈ e2.data, c ≠ '.' ∧ c ≠ '/') :
    destpathFinal WriteSpec.auto (base ++ "." ++ e1 ++ "." ++ e2)
      = some (base ++ "." ++ e1)
    ∧ destpathFinal WriteSpec.auto (base ++ "." ++ e1) = some (base ++ comp_ext) := by
  have hslash_b : ∀ a ∈ base.data, a ≠ '/' := fun a ha => (hb a ha).2
  have hdot_b : ∃ a ∈ base.data, a ≠ '.' := by
    rcases List.exists_mem_of_ne_nil base.data hb0 with ⟨a, ha⟩
    exact ⟨a, ha, (hb a ha).1⟩
  have hs1 : splitextL (base.data ++ '.' :: e1.data) = (base.data, '.' :: e1.data) :=
    splitextL_split base.data e1.data hslash_b hdot_b
      (fun a ha => (h1 a ha).1) (fun a ha => (h1 a ha).2)
  have hs2 : splitextL ((base.data ++ '.' :: e1.data) ++ '.' :: e2.data)
      = (base.data ++ '.' :: e1.data, '.' :: e2.data) := by
    apply splitextL_split
    · intro a ha
      rcases List.mem_append.mp ha with h | h
      · exact hslash_b a h
      · rcases List.mem_cons.mp h with h | h
        · rw [h]; decide
        · exact (h1 a h).2
    · rcases hdot_b with ⟨a, ha, hane⟩
      exact ⟨a, List.mem_append_left _ ha, hane⟩
    · exact fun a ha => (h2 a ha).1
    · exact fun a ha => (h2 a ha).2
  have hd2 : (base ++ "." ++ e1 ++ "." ++ e2).data
      = (base.data ++ '.' :: e1.data) ++ '.' :: e2.data := by
    simp [strData_append]
  have hd1 : (base ++ "." ++ e1).data = base.data ++ '.' :: e1.data := by
    simp [strData_append]
  have hmkne : (⟨'.' :: e1.data⟩ : String) ≠ "" := by
    intro h
    exact List.noConfusion (congrArg String.data h)
  have hbase_no_dot : ∀ a ∈ base.data, a ≠ '.' := fun a ha => (hb a ha).1
  constructor
  · rw [destpathFinal_auto (base ++ "." ++ e1 ++ "." ++ e2)
      (base.data ++ '.' :: e1.data) ('.' :: e2.data) base.data ('.' :: e1.data)
      (by rw [hd2]; exact hs2) hs1]
    rw [if_neg hmkne]
    refine congrArg some (strEq_of_data _ _ ?_)
    rw [strData_append, hd1]
  · rw [destpathFinal_auto (base ++ "." ++ e1)
      base.data ('.' :: e1.data) base.data []
      (by rw [hd1]; exact hs1) (splitextL_no_dot base.data hbase_no_dot)]
    rw [if_pos rfl]

theorem compile_file_dest_witness :
    destpathFinal WriteSpec.auto ("foo" ++ "." ++ "ext1" ++ "." ++ "ext2")
      = some ("foo" ++ "." ++ "ext1")
    ∧ destpathFinal WriteSpec.auto ("foo" ++ "." ++ "ext1") = some ("foo" ++ comp_ext) :=
  compile_file_dest "foo" "ext1" "ext2" (by decide) (by decide) (by decide) (by decide)

/-- C5 counterexample: a source named `foo.ext1.ext2` compiles (with an
automatic destination) to `foo.ext1`, not to `foo` plus the compiled-output
extension as the claim states: the secondary extension is kept, and
`comp_ext` is only appended when no secondary extension remains. -/
theorem compile_file_dest_cex :
    destpathFinal WriteSpec.auto "foo.ext1.ext2" = some "foo.ext1"
    ∧ some "foo.ext1" ≠ some ("foo" ++ comp_ext) := by
  constructor
  · rfl
  · decide

/-! ## C6: self-destination rejection -/

/-- C6: a unit whose derived destination equals its source path is rejected
by `compile_file` with the `cannot compile ... to itself` error, uniformly
in the filesystem — the check precedes the call to `compile`, which performs
every read and write for the unit, so no file is opened and no destination
is created or modified. -/
theorem compile_file_self_reject (G : String → Option String)
    (g : Bool → String → String) (T : Bool → String → String) (pkgHeader : String)
    (ws : WriteSpec) (filepath : String) (package run force : Bool)
    (h : destpathFinal ws filepath = some filepath) :
    ∀ fs : FS, compile_file G g T pkgHeader fs filepath ws package run force
      = Except.error ("cannot compile " ++ filepath
          ++ " to itself (incorrect file extension)") := by
  intro fs
  simp [compile_file, h]

theorem compile_file_self_reject_witness :
    compile_file (fun _ => none) (fun _ _ => "") (fun _ _ => "") ""
      (fun _ => none) "foo.py" WriteSpec.auto false false false
      = Except.error ("cannot compile " ++ "foo.py"
          ++ " to itself (incorrect file extension)") :=
  compile_file_self_reject (fun _ => none) (fun _ _ => "") (fun _ _ => "") ""
    WriteSpec.auto "foo.py" false false false rfl (fun _ => none)

/-! ## C7: worker-count semantics -/

/-- C7: `--jobs 0` is accepted and `running_jobs` runs the body inline with
no pool; a positive integer N is accepted and a pool of exactly N workers is
created; `"sys"` stores `None` and the pool is sized to the host's available
parallelism; a negative or non-integer value is rejected by `set_jobs`. -/
theorem jobs_semantics (host : Nat) :
    (set_jobs (JobsArg.int 0) = Except.ok (some 0)
      ∧ running_jobs_pool (some 0) host = none)
    ∧ (∀ n : Nat, 0 < n →
        set_jobs (JobsArg.int (n : Int)) = Except.ok (some (n : Int))
        ∧ running_jobs_pool (some (n : Int)) host = some n)
    ∧ (set_jobs JobsArg.sys = Except.ok none
      ∧ running_jobs_pool none host = some host)
    ∧ (∀ n : Int, n < 0 → set_jobs (JobsArg.int n) = Except.error jobsErrMsg)
    ∧ set_jobs JobsArg.nonIntStr = Except.error jobsErrMsg := by
  refine ⟨⟨rfl, rfl⟩, ?_, ⟨rfl, rfl⟩, ?_, rfl⟩
  · intro n hn
    constructor
    · have h : ¬((n : Int) < 0) := by omega
      simp [set_jobs, h]
    · have h : ((n : Int) == 0) = false := by
        simp
        omega
      simp only [running_jobs_pool, h, Bool.false_eq_true, if_false]
      exact congrArg some (by omega)
  · intro n hn
    simp [set_jobs, hn]

theorem jobs_semantics_witness :
    (set_jobs (JobsArg.int 0) = Except.ok (some 0)
      ∧ running_jobs_pool (some 0) 4 = none)
    ∧ (set_jobs (JobsArg.int ((3 : Nat) : Int)) = Except.ok (some ((3 : Nat) : Int))
      ∧ running_jobs_pool (some ((3 : Nat) : Int)) 4 = some 3)
    ∧ (set_jobs JobsArg.sys = Except.ok none
      ∧ running_jobs_pool none 4 = some 4)
    ∧ set_jobs (JobsArg.int (-1)) = Except.error jobsErrMsg
    ∧ set_jobs JobsArg.nonIntStr = Except.error jobsErrMsg := by
  obtain ⟨h0, hpos, hsys, hneg, hbad⟩ := jobs_semantics 4
  exact ⟨h0, hpos 3 (by decide), hsys, hneg (-1) (by decide), hbad⟩

/-! ## C8: package-marker creation -/

/-- C8: for a package-mode unit with a destination, `compile` (re)writes the
per-directory package marker as its very first step — the trace begins with
`wroteMarker`, before the cache check and before the unit is reported
complete — for every filesystem and force setting, so marker creation is
never cache-gated; afterwards the marker file holds the package header
text whether or not the unit itself was skipped. -/
theorem create_package_always (G : String → Option String)
    (g : Bool → String → String) (T : Bool → String → String) (pkgHeader : String)
    (fs : FS) (codepath d code : String) (run force : Bool)
    (hsrc : fs codepath = some code) (hmd : markerPathOf d ≠ d) :
    ∃ fs' rest, compileUnit G g T pkgHeader fs codepath (some d) true run force
        = Except.ok (fs', Event.wroteMarker :: rest)
      ∧ fs' (markerPathOf d) = some pkgHeader
      ∧ Event.reportedComplete ∈ rest := by
  rw [compileUnit_unfold G g T pkgHeader fs codepath d code true run force hsrc]
  by_cases hskip : truthyStr (cacheGate G g (markerStep fs d pkgHeader true)
      (some d) code true force) = true
  · rw [if_pos hskip]
    refine ⟨markerStep fs d pkgHeader true,
      (if force then [] else [Event.cacheChecked]) ++ [Event.reportedComplete],
      rfl, markerStep_marker fs d pkgHeader true rfl, ?_⟩
    cases force <;> simp
  · rw [if_neg hskip]
    refine ⟨writeFs (markerStep fs d pkgHeader true) d (T true code),
      (if force then [] else [Event.cacheChecked])
        ++ [Event.translated, Event.wroteDest, Event.reportedComplete],
      rfl, ?_, ?_⟩
    · rw [writeFs_other _ d _ _ hmd]
      exact markerStep_marker fs d pkgHeader true rfl
    · cases force <;> simp

theorem create_package_always_witness :
    ∃ fs' rest, compileUnit (fun _ => none) (fun _ _ => "h") (fun _ _ => "out") "PKG"
        (fun p => if p = "src/a.coco" then some "c" else none)
        "src/a.coco" (some "dst/a.py") true false false
        = Except.ok (fs', Event.wroteMarker :: rest)
      ∧ fs' (markerPathOf "dst/a.py") = some "PKG"
      ∧ Event.reportedComplete ∈ rest :=
  create_package_always (fun _ => none) (fun _ _ => "h") (fun _ _ => "out") "PKG"
    (fun p => if p = "src/a.coco" then some "c" else none)
    "src/a.coco" "dst/a.py" "c" false false (by decide) (by decide)

/-! ## C9: directory enumeration and hidden-directory pruning -/

theorem enumSubs_nil : enumSubs [] = [] := by
  simp [enumSubs]

theorem enumSubs_cons (n : String) (t : DirTree) (rest : List (String × DirTree)) :
    enumSubs ((n, t) :: rest)
      = (if hiddenSkip n then []
         else (enumTree t).map (fun p => (n :: p.1, p.2))) ++ enumSubs rest := by
  simp [enumSubs]

theorem enumTree_mk (fls : List String) (subs : List (String × DirTree)) :
    enumTree (DirTree.mk fls subs)
      = (fls.filter (fun f => code_exts.contains (splitext f).2)).map
          (fun f => (([] : List String), f)) ++ enumSubs subs := by
  simp [enumTree]

theorem enumSubs_path_ne_nil (l : List (String × DirTree)) :
    ∀ p : List String × String, p ∈ enumSubs l → p.1 ≠ [] := by
  induction l with
  | nil => intro p hp; rw [enumSubs_nil] at hp; simp at hp
  | cons s rest ih =>
    intro p hp
    obtain ⟨n, t0⟩ := s
    rw [enumSubs_cons] at hp
    rcases List.mem_append.mp hp with h | h
    · split at h
      · simp at h
      · rcases List.mem_map.mp h with ⟨q, _, hq⟩
        rw [← hq]
        simp
    · exact ih p h

theorem enumSubs_mem_path (d : String) (ds' : List String) (f : String)
    (l : List (String × DirTree)) :
    (d :: ds', f) ∈ enumSubs l
      ↔ hiddenSkip d = false ∧ ∃ t, (d, t) ∈ l ∧ (ds', f) ∈ enumTree t := by
  induction l with
  | nil => rw [enumSubs_nil]; simp
  | cons s rest ih =>
    obtain ⟨n, t0⟩ := s
    rw [enumSubs_cons]
    constructor
    · intro hp
      rcases List.mem_append.mp hp with h | h
      · by_cases hn : hiddenSkip n = true
        · rw [if_pos hn] at h
          simp at h
        · rw [if_neg hn] at h
          rcases List.mem_map.mp h with ⟨q, hq, hqe⟩
          have h1 : n = d := congrArg (fun x => x.1.headI) hqe
          have h2 : q.1 = ds' := by
            have := congrArg (fun x => x.1.tail) hqe
            simpa using this
          have h3 : q.2 = f := congrArg Prod.snd hqe
          subst h1
          refine ⟨Bool.eq_false_iff.mpr hn, t0, List.mem_cons_self _ _, ?_⟩
          have : q = (ds', f) := Prod.ext h2 h3
          rw [← this]
          exact hq
      · rcases ih.mp h with ⟨hd, t, htm, hte⟩
        exact ⟨hd, t, List.mem_cons_of_mem _ htm, hte⟩
    · rintro ⟨hd, t, htm, hte⟩
      rcases List.mem_cons.mp htm with h | h
      · have hn : n = d := (Prod.mk.injEq _ _ _ _).mp h.symm |>.1
        have ht : t0 = t := (Prod.mk.injEq _ _ _ _).mp h.symm |>.2
        subst hn
        subst ht
        apply List.mem_append_left
        rw [if_neg (by simp [hd])]
        exact List.mem_map.mpr ⟨(ds', f), hte, rfl⟩
      · exact List.mem_append_right _ (ih.mpr ⟨hd, t, h, hte⟩)

/-- C9 (amended): `compile_folder` enumerates exactly the files that lie at
a path whose directory names below the root all fail the pruning condition
and whose extension is recognized; a subdirectory is pruned (not descended
into, none of its files compiled) exactly when its name starts with a dot
AND contains a non-dot character — a name consisting entirely of dots is NOT
pruned, and the root itself, being given explicitly, is never examined. -/
theorem compile_folder_enum (ds : List String) : ∀ (t : DirTree) (f : String),
    (ds, f) ∈ enumTree t
      ↔ hasFileAt t ds f ∧ (∀ d ∈ ds, hiddenSkip d = false)
        ∧ code_exts.contains (splitext f).2 = true := by
  induction ds with
  | nil =>
    intro t f
    obtain ⟨fls, subs⟩ := t
    rw [enumTree_mk]
    constructor
    · intro hp
      rcases List.mem_append.mp hp with h | h
      · rcases List.mem_map.mp h with ⟨x, hx, hxe⟩
        have hxf : x = f := congrArg Prod.snd hxe
        subst hxf
        rcases List.mem_filter.mp hx with ⟨hmem, hflt⟩
        exact ⟨hmem, by simp, hflt⟩
      · exact absurd rfl (enumSubs_path_ne_nil subs ([], f) h)
    · rintro ⟨hfile, _, hext⟩
      exact List.mem_append_left _
        (List.mem_map.mpr ⟨f, List.mem_filter.mpr ⟨hfile, hext⟩, rfl⟩)
  | cons d ds' ih =>
    intro t f
    obtain ⟨fls, subs⟩ := t
    rw [enumTree_mk]
    constructor
    · intro hp
      rcases List.mem_append.mp hp with h | h
      · rcases List.mem_map.mp h with ⟨x, _, hxe⟩
        exact absurd (congrArg Prod.fst hxe) (by simp)
      · rcases (enumSubs_mem_path d ds' f subs).mp h with ⟨hd, t', htm, hte⟩
        rcases (ih t' f).mp hte with ⟨hfile, hall, hext⟩
        refine ⟨⟨(d, t'), htm, rfl, hfile⟩, ?_, hext⟩
        intro x hx
        rcases List.mem_cons.mp hx with h | h
        · rw [h]; exact hd
        · exact hall x h
    · rintro ⟨⟨s, hsmem, hs1, hsfile⟩, hall, hext⟩
      obtain ⟨n, t'⟩ := s
      have hn : n = d := hs1
      subst hn
      apply List.mem_append_right
      apply (enumSubs_mem_path n ds' f subs).mpr
      exact ⟨hall n (List.mem_cons_self _ _), t', hsmem,
        (ih t' f).mpr ⟨hsfile, fun x hx => hall x (List.mem_cons_of_mem _ hx), hext⟩⟩

theorem compile_folder_enum_witness :
    (([".git"], "a.coco") ∈ enumTree (DirTree.mk []
        [(".git", DirTree.mk ["a.coco"] [])])
      ↔ hasFileAt (DirTree.mk [] [(".git", DirTree.mk ["a.coco"] [])])
          [".git"] "a.coco"
        ∧ (∀ d ∈ [".git"], hiddenSkip d = false)
        ∧ code_exts.contains (splitext "a.coco").2 = true) :=
  compile_folder_enum [".git"] (DirTree.mk [] [(".git", DirTree.mk ["a.coco"] [])])
    "a.coco"

/-- C9 counterexample: the directory name `"..."` begins with the
hidden-entry marker (a leading dot), yet `compile_folder` does not skip it —
`name != "." * len(name)` exempts names made entirely of dots — so the
`.coco` file inside it is enumerated and compiled, contradicting the claim
that every leading-dot directory is skipped. -/
theorem compile_folder_hidden_cex :
    (("...".data.head? == some '.') = true)
    ∧ (["..."], "a.coco") ∈ enumTree (DirTree.mk []
        [("...", DirTree.mk ["a.coco"] [])]) := by
  constructor
  · decide
  · rw [enumTree_mk, enumSubs_cons, enumTree_mk, enumSubs_nil]
    rw [if_neg (by decide)]
    decide

/-! ## C10: source/mode validation in `use_args` -/

/-- C10: when `--run` is set and the source is a directory, or `--watch` is
set and the source is a file, the source block of `use_args` raises a
configuration error before resolving the destination and package mode and
before `compile_path` is reached — no unit is resolved, scheduled, or
written. -/
theorem use_args_validation (watch interact nowrite package standalone : Bool)
    (dest : Option String) (destIsFile : Bool) :
    (∀ run, run = true →
      use_args_source SrcKind.dir run watch interact nowrite package standalone
        dest destIsFile
        = Except.error "source path must point to file not directory when --run is enabled")
    ∧ (∀ run, watch = true →
      use_args_source SrcKind.file run watch interact nowrite package standalone
        dest destIsFile
        = Except.error "source path must point to directory not file when --watch is enabled") := by
  constructor
  · intro run hr
    subst hr
    simp [use_args_source]
  · intro run hw
    subst hw
    simp [use_args_source]

theorem use_args_validation_witness :
    use_args_source SrcKind.dir true false false false false false none false
      = Except.error "source path must point to file not directory when --run is enabled"
    ∧ use_args_source SrcKind.file false true false false false false none false
      = Except.error "source path must point to directory not file when --watch is enabled" :=
  ⟨(use_args_validation false false false false false none false).1 true rfl,
   (use_args_validation true false false false false none false).2 false rfl⟩
